import Mathlib

/-!
Shallow embedding of the flow-feature extraction engine of
`real_traffic_scripts` (files `attack/extraction/extract_attack_features.py`
and `benign/extraction/extract_benign_features.py`), with theorems checking
the specification's claims about it.

Timestamps and byte counts are modelled as rationals (`ℚ`), exact stand-ins
for the Python floats; addresses and ports as strings (pyshark field values);
fallible per-packet field decoding as `Option` fields of a `RawPacket`.
-/

namespace Extract

/-! ### Python sequence values and `safe_stat`

`safe_stat(arr, func, default)` evaluates `arr`'s truth value.  For a Python
list this is emptiness; for a numpy array it is: `False` for an empty array,
the single element's non-zeroness for a one-element array, and a raised
`ValueError` for two or more elements.  The raise is caught by the
`except Exception` handler and yields the default. -/

/-- A value passed to `safe_stat`: either a Python list or a numpy array. -/
inductive PySeq where
  | pylist (l : List ℚ)
  | nparr (l : List ℚ)
deriving DecidableEq

/-- Elements carried by a `PySeq`. -/
def elemsOf : PySeq → List ℚ
  | .pylist l => l
  | .nparr l => l

/-- Truth value of a `PySeq`, as Python computes it.  `Except.error` models a
raised `ValueError` (ambiguous truth value of a multi-element array). -/
def pyTruthy : PySeq → Except Unit Bool
  | .pylist l => .ok (decide (l ≠ []))
  | .nparr [] => .ok false
  | .nparr [x] => .ok (decide (x ≠ 0))
  | .nparr (_ :: _ :: _) => .error ()

/-- Embedding of `safe_stat(arr, func, default)` (both scripts, identical):
`return float(func(arr)) if arr else default`, with any exception mapped to
the default. -/
def safe_stat (arr : PySeq) (func : List ℚ → Except Unit ℚ) (default : ℚ) : ℚ :=
  match pyTruthy arr with
  | .error _ => default
  | .ok false => default
  | .ok true =>
    match func (elemsOf arr) with
    | .error _ => default
    | .ok v => v

/-- Embedding of `np.mean` on a sequence (errors on the empty input, which
`safe_stat` never reaches). -/
def npMean (l : List ℚ) : Except Unit ℚ :=
  match l with
  | [] => .error ()
  | _ :: _ => .ok (l.sum / l.length)

/-- Embedding of `np.max`. -/
def npMax (l : List ℚ) : Except Unit ℚ :=
  match l with
  | [] => .error ()
  | x :: xs => .ok (xs.foldl max x)

/-- Embedding of `np.min`. -/
def npMin (l : List ℚ) : Except Unit ℚ :=
  match l with
  | [] => .error ()
  | x :: xs => .ok (xs.foldl min x)

/-- Embedding of `np.diff`: differences of consecutive elements. -/
def npDiff : List ℚ → List ℚ
  | [] => []
  | [_] => []
  | a :: b :: rest => (b - a) :: npDiff (b :: rest)

/-- Arithmetic mean of a list (used by the spec-side formulations). -/
def listMean (l : List ℚ) : ℚ := l.sum / l.length

/-! ### Configuration constants (both scripts) -/

/-- Seconds between packets to count as idle (both scripts). -/
def IDLE_THRESHOLD : ℚ := 1

/-- Maximum subflow duration in seconds (benign script). -/
def MAX_FLOW_DURATION : ℚ := 30

/-- Maximum packets per subflow (benign script). -/
def MAX_PKTS_PER_SUBFLOW : Nat := 20

/-- Minimum packets in a bulk burst. -/
def BULK_MIN_PKTS : Nat := 4

/-- Minimum bytes in a bulk burst. -/
def BULK_MIN_BYTES : ℚ := 500

/-! ### `compute_active_idle` -/

/-- Loop of `compute_active_idle`: walks the remaining timestamps carrying the
time of the current span's first packet (`spanStart`, the Python
`times[start]`) and the previous timestamp (`prev`, the Python `times[i]`).
A gap `≥ threshold` closes the current active span and records the gap as
idle; the final span is always appended. -/
def aiGo (threshold spanStart prev : ℚ) : List ℚ → List ℚ × List ℚ
  | [] => ([prev - spanStart], [])
  | t :: rest =>
    if t - prev ≥ threshold then
      let ai := aiGo threshold t t rest
      ((prev - spanStart) :: ai.1, (t - prev) :: ai.2)
    else
      aiGo threshold spanStart t rest

/-- Embedding of `compute_active_idle(times, threshold)` (both scripts):
fewer than 2 timestamps yields two empty lists, otherwise the gap walk. -/
def compute_active_idle (times : List ℚ) (threshold : ℚ) : List ℚ × List ℚ :=
  match times with
  | [] => ([], [])
  | [_] => ([], [])
  | t :: rest => aiGo threshold t t rest

/-! ### `compute_bulk_metrics` -/

/-- Result record of `compute_bulk_metrics`. -/
structure BulkResult where
  avg_bytes : ℚ
  avg_packets : ℚ
  avg_rate : ℚ
deriving DecidableEq

/-- Loop of `compute_bulk_metrics`: walks the remaining timestamps `ts` with
their byte lengths `ls`, carrying the current run's first timestamp
(`runStart`, the Python `times[start]`), the previous timestamp (`prev`), the
run's packet count (`cnt`) and byte sum (`bsum`).  A gap `≥ threshold` closes
the run, appending `(count, byte_sum, byte_sum / max(duration, 1e-4))` when
`count ≥ min_pkts` and `byte_sum ≥ min_bytes`; the final segment is closed the
same way.  `ls.headD 0` mirrors the Python slice `lengths[start:i+1]`, which
silently truncates when `lengths` is shorter than `times`. -/
def bulksAux (th : ℚ) (minp : Nat) (minb : ℚ) :
    ℚ → ℚ → Nat → ℚ → List ℚ → List ℚ → List (Nat × ℚ × ℚ)
  | runStart, prev, cnt, bsum, [], _ =>
    if minp ≤ cnt ∧ minb ≤ bsum then
      [(cnt, bsum, bsum / max (prev - runStart) (1 / 10000))]
    else []
  | runStart, prev, cnt, bsum, t :: ts, ls =>
    if t - prev ≥ th then
      let rest := bulksAux th minp minb t t 1 (ls.headD 0) ts ls.tail
      if minp ≤ cnt ∧ minb ≤ bsum then
        (cnt, bsum, bsum / max (prev - runStart) (1 / 10000)) :: rest
      else rest
    else
      bulksAux th minp minb runStart t (cnt + 1) (bsum + ls.headD 0) ts ls.tail

/-- Final block of `compute_bulk_metrics`: `if not bulks:` return the
all-zero result, else return the `safe_stat`/`np.mean` averages of the three
components of the collected bulks. -/
def bulkFinish (bulks : List (Nat × ℚ × ℚ)) : BulkResult :=
  if bulks = [] then ⟨0, 0, 0⟩
  else
    ⟨safe_stat (.pylist (bulks.map (fun x => x.2.1))) npMean 0,
     safe_stat (.pylist (bulks.map (fun x => (x.1 : ℚ)))) npMean 0,
     safe_stat (.pylist (bulks.map (fun x => x.2.2))) npMean 0⟩

/-- Embedding of `compute_bulk_metrics(times, lengths, min_pkts, min_bytes,
threshold)` (both scripts).  The `Except.error` case records the one input on
which the Python raises: reaching the final-segment qualification with an
empty `times` (only possible when `min_pkts = 0`) evaluates `times[-1]` and
raises `IndexError`. -/
def compute_bulk_metrics (times lengths : List ℚ) (min_pkts : Nat)
    (min_bytes threshold : ℚ) : Except Unit BulkResult :=
  if times.length < min_pkts then .ok ⟨0, 0, 0⟩
  else
    match times with
    | [] => if min_pkts ≤ 0 ∧ min_bytes ≤ 0 then .error () else .ok ⟨0, 0, 0⟩
    | t :: ts =>
      .ok (bulkFinish
        (bulksAux threshold min_pkts min_bytes t t 1 (lengths.headD 0) ts lengths.tail))

/-- Number of entries of the `bulks` list that `compute_bulk_metrics`
accumulates, i.e. the number of runs that qualify as bulks; the early
all-zero return for fewer than `min_pkts` samples counts as zero.  The
empty-`times` arm mirrors the final-segment qualification test the code
performs before it would raise. -/
def numQualifyingBulks (times lengths : List ℚ) (min_pkts : Nat)
    (min_bytes threshold : ℚ) : Nat :=
  if times.length < min_pkts then 0
  else
    match times with
    | [] => if min_pkts ≤ 0 ∧ min_bytes ≤ 0 then 1 else 0
    | t :: ts =>
      (bulksAux threshold min_pkts min_bytes t t 1 (lengths.headD 0) ts lengths.tail).length

/-! ### Spec-side formulation of bulk detection (§4.4 of the spec)

These definitions follow the specification's words — partition the
`(timestamp, length)` stream into contiguous runs separated by gaps
`≥ threshold`, keep the runs with enough packets and bytes, average — and are
compared with the source-translated `compute_bulk_metrics` above. -/

/-- Partition step: `cur` is the current run, most recent packet first. -/
def splitRunsAux (th : ℚ) (cur : List (ℚ × ℚ)) : List (ℚ × ℚ) → List (List (ℚ × ℚ))
  | [] => [cur.reverse]
  | q :: rest =>
    if q.1 - (cur.headD q).1 ≥ th then cur.reverse :: splitRunsAux th [q] rest
    else splitRunsAux th (q :: cur) rest

/-- Partition of a `(timestamp, length)` stream into contiguous runs
separated by gaps `≥ th`. -/
def splitRuns (th : ℚ) : List (ℚ × ℚ) → List (List (ℚ × ℚ))
  | [] => []
  | p :: ps => splitRunsAux th [p] ps

/-- Byte sum of a run. -/
def runBytes (r : List (ℚ × ℚ)) : ℚ := (r.map Prod.snd).sum

/-- Duration of a run: last timestamp minus first. -/
def runDuration (r : List (ℚ × ℚ)) : ℚ := (r.getLastD (0, 0)).1 - (r.headD (0, 0)).1

/-- A run qualifies as a bulk iff it has at least `minp` packets and at least
`minb` bytes. -/
def runQualifies (minp : Nat) (minb : ℚ) (r : List (ℚ × ℚ)) : Bool :=
  decide (minp ≤ r.length) && decide (minb ≤ runBytes r)

/-- Rate of a run: bytes divided by its duration floored at `1e-4`. -/
def runRate (r : List (ℚ × ℚ)) : ℚ := runBytes r / max (runDuration r) (1 / 10000)

/-- The qualifying runs of a stream. -/
def qualifyingRuns (th : ℚ) (minp : Nat) (minb : ℚ) (pairs : List (ℚ × ℚ)) :
    List (List (ℚ × ℚ)) :=
  (splitRuns th pairs).filter (runQualifies minp minb)

/-- Spec-side bulk result: the three outputs are the arithmetic means of
packet count, byte sum and rate over exactly the qualifying runs, and all
zero when no run qualifies. -/
def specBulkResult (th : ℚ) (minp : Nat) (minb : ℚ) (pairs : List (ℚ × ℚ)) :
    BulkResult :=
  if qualifyingRuns th minp minb pairs = [] then ⟨0, 0, 0⟩
  else
    ⟨listMean ((qualifyingRuns th minp minb pairs).map runBytes),
     listMean ((qualifyingRuns th minp minb pairs).map (fun r => (r.length : ℚ))),
     listMean ((qualifyingRuns th minp minb pairs).map runRate)⟩

/-! ### Packets and flow accumulators

A `RawPacket` models one pyshark packet as seen by the per-packet `try`
blocks.  Each field that the scripts read is an `Option`: `none` means the
read (attribute access or `int`/`float` conversion) raises at that point.
`hdr_len` is doubly optional: the outer `none` is `hasattr` false (the code
substitutes 0), `some none` is a present but unparsable value (raises). -/

/-- One decoded-or-not packet record. -/
structure RawPacket where
  ts : Option ℚ
  ipsrc : Option String
  sport : Option String
  ipdst : Option String
  dport : Option String
  transport : Option String
  length : Option ℤ
  hdr_len : Option (Option ℤ)
  window : Option ℤ
  flags : Option String
  flagsVal : Option Nat
deriving DecidableEq

/-- Direction of a packet relative to its flow. -/
inductive Dir where
  | fwd
  | bwd
deriving DecidableEq

/-- One mutable flow accumulator (the per-key dict of both scripts). -/
structure FlowAcc where
  start : ℚ
  endTs : ℚ
  times : List ℚ
  lengths : List ℤ
  fwd_times : List ℚ
  bwd_times : List ℚ
  fwd_lengths : List ℤ
  bwd_lengths : List ℤ
  fwd_hdrs : List ℤ
  bwd_hdrs : List ℤ
  flags_hex : List String
  fwd_psh : Nat
  bwd_psh : Nat
  fwd_urg : Nat
  bwd_urg : Nat
  init_win_fwd : Option ℤ
  init_win_bwd : Option ℤ
deriving DecidableEq

/-- Fresh accumulator for a flow first seen at time `ts`. -/
def emptyAcc (ts : ℚ) : FlowAcc :=
  ⟨ts, ts, [], [], [], [], [], [], [], [], [], 0, 0, 0, 0, none, none⟩

/-- Lookup in an insertion-ordered association list (a Python dict). -/
def alookup {κ α : Type} [DecidableEq κ] : List (κ × α) → κ → Option α
  | [], _ => none
  | (k, v) :: rest, key => if k = key then some v else alookup rest key

/-- In-place update of the value at `key` (mutating `dict[key]`). -/
def aupdate {κ α : Type} [DecidableEq κ] (l : List (κ × α)) (key : κ) (g : α → α) :
    List (κ × α) :=
  l.map (fun kv => if kv.1 = key then (kv.1, g kv.2) else kv)

/-- Insert-or-replace at `key` (assignment `dict[key] = v`). -/
def ainsert {κ α : Type} [DecidableEq κ] : List (κ × α) → κ → α → List (κ × α)
  | [], key, v => [(key, v)]
  | (k, w) :: rest, key, v =>
    if k = key then (key, v) :: rest else (k, w) :: ainsert rest key v

/-- Flag-stage ingestion (both scripts): read `pkt.tcp.flags` (raises when
missing), append it to `flags_hex`, parse it with `int(flags, 0)` (may
raise), then bump the direction's PSH (bit 3) and URG (bit 5) counters. -/
def ingestFlags (f : FlowAcc) (dir : Dir) (p : RawPacket) : FlowAcc :=
  match p.flags with
  | none => f
  | some fs =>
    let f := { f with flags_hex := f.flags_hex ++ [fs] }
    match p.flagsVal with
    | none => f
    | some v =>
      match dir with
      | .fwd => { f with fwd_psh := f.fwd_psh + ((v >>> 3) &&& 1),
                         fwd_urg := f.fwd_urg + ((v >>> 5) &&& 1) }
      | .bwd => { f with bwd_psh := f.bwd_psh + ((v >>> 3) &&& 1),
                         bwd_urg := f.bwd_urg + ((v >>> 5) &&& 1) }

/-- Direction-stage ingestion (both scripts): append timestamp, length and
header length to the direction's lists; on the first packet of the direction
parse `window_size_value` (may raise, after the appends); then the flag
stage. -/
def ingestDir (f : FlowAcc) (ts : ℚ) (len hdr : ℤ) (dir : Dir) (p : RawPacket) :
    FlowAcc :=
  match dir with
  | .fwd =>
    let f := { f with fwd_times := f.fwd_times ++ [ts],
                      fwd_lengths := f.fwd_lengths ++ [len],
                      fwd_hdrs := f.fwd_hdrs ++ [hdr] }
    match f.init_win_fwd with
    | some _ => ingestFlags f dir p
    | none =>
      match p.window with
      | none => f
      | some w => ingestFlags { f with init_win_fwd := some w } dir p
  | .bwd =>
    let f := { f with bwd_times := f.bwd_times ++ [ts],
                      bwd_lengths := f.bwd_lengths ++ [len],
                      bwd_hdrs := f.bwd_hdrs ++ [hdr] }
    match f.init_win_bwd with
    | some _ => ingestFlags f dir p
    | none =>
      match p.window with
      | none => f
      | some w => ingestFlags { f with init_win_bwd := some w } dir p

/-- Accumulator mutation for one packet after key and direction resolution
(both scripts, attack lines 117-146): set `end`, parse `pkt.length` (may
raise, leaving only `end` changed), append to the combined lists, compute the
header length (`int(pkt.tcp.hdr_len)` may raise, leaving the combined appends
behind), then the direction and flag stages. -/
def accIngest (f : FlowAcc) (ts : ℚ) (dir : Dir) (p : RawPacket) : FlowAcc :=
  let f := { f with endTs := ts }
  match p.length with
  | none => f
  | some len =>
    let f := { f with times := f.times ++ [ts], lengths := f.lengths ++ [len] }
    match p.hdr_len with
    | some none => f
    | none => ingestDir f ts len 0 dir p
    | some (some h) => ingestDir f ts len h dir p

/-! ### Attack-mode flow assembly (whole-flow policy) -/

/-- Flow key of both scripts, the tuple `(src, sport, dst, dport, proto)`
(modelled as a structure so that equality is the tuple equality). -/
structure FlowKey where
  src : String
  sport : String
  dst : String
  dport : String
  proto : String
deriving DecidableEq

/-- Per-packet step of the attack script's grouping loop (lines 90-149): the
fields read before any mutation (`sniff_timestamp`, addresses, ports) drop
the packet wholesale when missing; then the reverse-orientation lookup fixes
key and direction, a missing key creates an accumulator, and the accumulator
is mutated by `accIngest`. -/
def attackStep (flows : List (FlowKey × FlowAcc)) (p : RawPacket) :
    List (FlowKey × FlowAcc) :=
  match p.ts, p.ipsrc, p.sport, p.ipdst, p.dport with
  | some ts, some src, some sp, some dst, some dp =>
    let base : FlowKey := ⟨src, sp, dst, dp, "TCP"⟩
    let rev : FlowKey := ⟨dst, dp, src, sp, "TCP"⟩
    let kd : FlowKey × Dir :=
      if (alookup flows rev).isSome then (rev, .bwd) else (base, .fwd)
    let flows1 :=
      if (alookup flows kd.1).isSome then flows else flows ++ [(kd.1, emptyAcc ts)]
    aupdate flows1 kd.1 (fun f => accIngest f ts kd.2 p)
  | _, _, _, _, _ => flows

/-- The attack script's whole grouping loop over a packet stream. -/
def attackRun (l : List RawPacket) : List (FlowKey × FlowAcc) :=
  l.foldl attackStep []

/-! ### Benign-mode flow assembly (subflow-bounded policy) -/

/-- Per-base-key subflow bookkeeping of the benign script. -/
structure SubflowMeta where
  idx : Nat
  start_ts : ℚ
  pkt_count : Nat
deriving DecidableEq

/-- Subflow key of the benign script: base key plus subflow index. -/
abbrev SubKey := FlowKey × Nat

/-- State of the benign script's grouping loop: `flow_meta` and `flows`. -/
structure BState where
  flow_meta : List (FlowKey × SubflowMeta)
  flows : List (SubKey × FlowAcc)
deriving DecidableEq

/-- Accumulator mutation of the benign script (lines 129-160).  Identical to
the attack `accIngest` except for the direction rule: the packet's
`(src, sport)` is compared against `base[:2]` — where `base` was built from
this same packet. -/
def benignIngest (f : FlowAcc) (ts : ℚ) (src sp : String) (base : FlowKey)
    (p : RawPacket) : FlowAcc :=
  let f := { f with endTs := ts }
  match p.length with
  | none => f
  | some len =>
    let f := { f with times := f.times ++ [ts], lengths := f.lengths ++ [len] }
    let dir : Dir := if (src, sp) = (base.src, base.sport) then .fwd else .bwd
    match p.hdr_len with
    | some none => f
    | none => ingestDir f ts len 0 dir p
    | some (some h) => ingestDir f ts len h dir p

/-- Per-packet step of the benign script's grouping loop (lines 95-163):
read timestamp and the base 5-tuple (dropping the packet when missing),
fetch-or-create the base's `SubflowMeta`, rotate the subflow index when the
elapsed time since the subflow's start exceeds `MAX_FLOW_DURATION` or the
packet count has reached `MAX_PKTS_PER_SUBFLOW`, key the packet by
`base + (idx,)`, bump the count, and mutate that subflow's accumulator. -/
def benignStep (s : BState) (p : RawPacket) : BState :=
  match p.ts, p.ipsrc, p.sport, p.ipdst, p.dport, p.transport with
  | some ts, some src, some sp, some dst, some dp, some tl =>
    let base : FlowKey := ⟨src, sp, dst, dp, tl⟩
    let meta0 : SubflowMeta :=
      match alookup s.flow_meta base with
      | some m => m
      | none => ⟨0, ts, 0⟩
    let meta1 : SubflowMeta :=
      if ts - meta0.start_ts > MAX_FLOW_DURATION ∨ meta0.pkt_count ≥ MAX_PKTS_PER_SUBFLOW
      then ⟨meta0.idx + 1, ts, 0⟩ else meta0
    let key : SubKey := (base, meta1.idx)
    let fm := ainsert s.flow_meta base ⟨meta1.idx, meta1.start_ts, meta1.pkt_count + 1⟩
    let flows1 :=
      if (alookup s.flows key).isSome then s.flows else s.flows ++ [(key, emptyAcc ts)]
    ⟨fm, aupdate flows1 key (fun f => benignIngest f ts src sp base p)⟩
  | _, _, _, _, _, _ => s

/-- The benign script's whole grouping loop over a packet stream. -/
def benignRun (l : List RawPacket) : BState :=
  l.foldl benignStep ⟨[], []⟩

/-- Subflow rotation rule of the benign script in isolation (lines 104-116):
rotate when the elapsed time since the subflow's recorded start exceeds
`MAX_FLOW_DURATION` or the packet count has reached `MAX_PKTS_PER_SUBFLOW`;
then count the packet. -/
def subflowStep (meta : SubflowMeta) (ts : ℚ) : SubflowMeta :=
  if ts - meta.start_ts > MAX_FLOW_DURATION ∨ meta.pkt_count ≥ MAX_PKTS_PER_SUBFLOW
  then ⟨meta.idx + 1, ts, 1⟩
  else ⟨meta.idx, meta.start_ts, meta.pkt_count + 1⟩

/-- Subflow indices assigned to the successive packets of one base key. -/
def subflowIndicesAux (meta : SubflowMeta) : List ℚ → List Nat
  | [] => []
  | ts :: rest => (subflowStep meta ts).idx :: subflowIndicesAux (subflowStep meta ts) rest

/-- Subflow indices assigned to a base key's packets by arrival timestamps,
starting from the created meta `{idx: 0, start_ts: first, pkt_count: 0}`. -/
def subflowIndices : List ℚ → List Nat
  | [] => []
  | ts :: rest => subflowIndicesAux ⟨0, ts, 0⟩ (ts :: rest)

/-- Count-only abstraction of `subflowStep`, valid when the duration check
never fires: state is `(idx, pkt_count)`. -/
def pureStep (m : Nat × Nat) : Nat × Nat :=
  if m.2 ≥ MAX_PKTS_PER_SUBFLOW then (m.1 + 1, 1) else (m.1, m.2 + 1)

/-- Indices produced by `n` packets under the count-only abstraction. -/
def pureIndicesAux (m : Nat × Nat) : Nat → List Nat
  | 0 => []
  | n + 1 => (pureStep m).1 :: pureIndicesAux (pureStep m) n

/-! ### Well-formedness, counting and feature helpers -/

/-- A packet is well formed when every field the scripts read decodes. -/
def wellFormed (p : RawPacket) : Bool :=
  p.ts.isSome && p.ipsrc.isSome && p.sport.isSome && p.ipdst.isSome &&
  p.dport.isSome && p.transport.isSome && p.length.isSome &&
  (match p.hdr_len with | some none => false | _ => true) &&
  p.window.isSome && p.flags.isSome && p.flagsVal.isSome

/-- Packets counted by an accumulator: forward plus backward. -/
def dirCount (f : FlowAcc) : Nat := f.fwd_lengths.length + f.bwd_lengths.length

/-- Total forward-plus-backward packet count over all flow accumulators. -/
def totalDirCount {κ : Type} (flows : List (κ × FlowAcc)) : Nat :=
  (flows.map (fun kv => dirCount kv.2)).sum

/-- Whether an accumulator has an untouched backward side: empty backward
timestamp/length/header lists, zero backward PSH/URG counters, unset backward
initial window. -/
def noBwd (f : FlowAcc) : Prop :=
  f.bwd_times = [] ∧ f.bwd_lengths = [] ∧ f.bwd_hdrs = [] ∧
  f.bwd_psh = 0 ∧ f.bwd_urg = 0 ∧ f.init_win_bwd = none

/-- The inter-arrival-time array of the feature aggregation (attack lines
173-176, benign lines 187-190): `np.diff(sorted(times))` when there are at
least two timestamps, else the one-element array `[0.0]`.  The result is a
numpy array, which is what `safe_stat` then receives. -/
def flowIats (times : List ℚ) : PySeq :=
  if times.length > 1 then .nparr (npDiff (List.insertionSort (· ≤ ·) times))
  else .nparr [0]

/-! ### Concrete packets used by the evaluation theorems -/

/-- Fully decodable packet a→b at t=1 (flag byte 0x18 = PSH+ACK). -/
def pktAB : RawPacket :=
  ⟨some 1, some "10.0.0.1", some "1111", some "10.0.0.2", some "80", some "TCP",
   some 60, some (some 20), some 100, some "0x18", some 24⟩

/-- Fully decodable packet in the reverse orientation b→a at t=2. -/
def pktBA : RawPacket :=
  ⟨some 2, some "10.0.0.2", some "80", some "10.0.0.1", some "1111", some "TCP",
   some 60, some (some 20), some 100, some "0x18", some 24⟩

/-- Packet a→b at t=1 whose `pkt.length` does not parse. -/
def pktNoLen : RawPacket :=
  ⟨some 1, some "10.0.0.1", some "1111", some "10.0.0.2", some "80", some "TCP",
   none, some (some 20), some 100, some "0x18", some 24⟩

/-- Packet a→b at t=3 whose flag value does not parse with `int(flags, 0)`
(the flags attribute itself is present). -/
def pktBadFlagVal : RawPacket :=
  ⟨some 3, some "10.0.0.1", some "1111", some "10.0.0.2", some "80", some "TCP",
   some 60, some (some 20), some 100, some "0x18", none⟩

/-! ### C4 — active/idle round trip -/

/-- Length invariant of the gap walk: one more active span than idle gaps. -/
theorem aiGo_length (th : ℚ) (s prev : ℚ) (l : List ℚ) :
    (aiGo th s prev l).1.length = (aiGo th s prev l).2.length + 1 := by
  induction l generalizing s prev with
  | nil => simp [aiGo]
  | cons t rest ih =>
    by_cases h : t - prev ≥ th
    · simp [aiGo, h, ih]
    · simpa [aiGo, h] using ih s t

/-- Telescoping sum of the gap walk: active plus idle spans the interval from
the current span's start to the last timestamp. -/
theorem aiGo_sum (th : ℚ) (s prev : ℚ) (l : List ℚ) :
    (aiGo th s prev l).1.sum + (aiGo th s prev l).2.sum = l.getLastD prev - s := by
  induction l generalizing s prev with
  | nil => simp [aiGo]
  | cons t rest ih =>
    by_cases h : t - prev ≥ th
    · have h1 := ih t t
      simp only [aiGo, h, if_pos, List.sum_cons, List.getLastD_cons]
      linarith
    · have h1 := ih s t
      simp only [aiGo, h, if_neg, not_false_iff, List.getLastD_cons]
      simpa using h1

/-- C4 (amended): for every ascending timestamp sequence with at least two
elements, the Active/Idle Analyzer's output satisfies
`sum(active) + sum(idle) = last - first` (exactly, over `ℚ`) and
`len(active) = len(idle) + 1`.  Sequences with fewer than two timestamps
yield two empty sequences, for which the length identity fails (see the
counterexample theorem). -/
theorem active_idle_round_trip (times : List ℚ) (threshold : ℚ)
    (h2 : 2 ≤ times.length) (hsort : times.Chain' (· ≤ ·)) :
    (compute_active_idle times threshold).1.sum +
        (compute_active_idle times threshold).2.sum
      = times.getLastD 0 - times.headI ∧
    (compute_active_idle times threshold).1.length
      = (compute_active_idle times threshold).2.length + 1 := by
  match times, h2 with
  | t :: t2 :: rest, _ =>
    have heq : compute_active_idle (t :: t2 :: rest) threshold
        = aiGo threshold t t (t2 :: rest) := rfl
    rw [heq]
    refine ⟨?_, aiGo_length threshold t t (t2 :: rest)⟩
    rw [aiGo_sum threshold t t (t2 :: rest), List.getLastD_cons 0 t (t2 :: rest)]
    rfl

/-- C4 counterexample: a single-timestamp input yields `([], [])`, so
`len(active) = len(idle) + 1` fails (0 ≠ 1), refuting the claim's inclusion
of sequences with fewer than two elements. -/
theorem active_idle_singleton_cex :
    compute_active_idle [5] 1 = ([], []) ∧
    ¬ (compute_active_idle [5] 1).1.length = (compute_active_idle [5] 1).2.length + 1 := by
  constructor
  · rfl
  · decide

/-- Witness for `active_idle_round_trip` at `[0, 2, 3]` with threshold 1. -/
theorem active_idle_round_trip_witness :
    (2 ≤ ([0, 2, 3] : List ℚ).length ∧ ([0, 2, 3] : List ℚ).Chain' (· ≤ ·)) ∧
    ((compute_active_idle [0, 2, 3] 1).1.sum + (compute_active_idle [0, 2, 3] 1).2.sum
        = ([0, 2, 3] : List ℚ).getLastD 0 - ([0, 2, 3] : List ℚ).headI ∧
      (compute_active_idle [0, 2, 3] 1).1.length
        = (compute_active_idle [0, 2, 3] 1).2.length + 1) :=
  ⟨⟨by decide, by norm_num [List.chain'_cons]⟩,
   active_idle_round_trip [0, 2, 3] 1 (by decide) (by norm_num [List.chain'_cons])⟩

/-! ### C9 — `safe_stat` on multi-element numpy arrays -/

/-- C9: for a numpy array of two or more elements, `safe_stat` returns the
default regardless of contents and of `func`, because evaluating the array's
truth value raises and the handler returns the default. -/
theorem safe_stat_nparr_default (l : List ℚ) (func : List ℚ → Except Unit ℚ)
    (d : ℚ) (h : 2 ≤ l.length) : safe_stat (.nparr l) func d = d := by
  match l, h with
  | _ :: _ :: _, _ => rfl

/-- Witness for `safe_stat_nparr_default` at the array `[1, 2]`. -/
theorem safe_stat_nparr_default_witness :
    2 ≤ ([1, 2] : List ℚ).length ∧ safe_stat (.nparr [1, 2]) npMean 0 = 0 :=
  ⟨by decide, safe_stat_nparr_default [1, 2] npMean 0 (by decide)⟩

/-! ### C1 — IAT statistic features -/

/-- C1 (code defect): for a flow whose combined timestamps are `[0, 1, 3]`,
the inter-arrival array is the two-element numpy array `[1, 2]`, so
`safe_stat` returns 0 for every statistic function, while the descriptive
statistics of the inter-arrival sequence are mean 3/2, max 2, min 1 — all
nonzero.  The emitted `flow iat mean/std/max/min` features therefore do not
equal the statistics of the inter-arrival sequence. -/
theorem flow_iat_features_zeroed :
    (∀ func : List ℚ → Except Unit ℚ, safe_stat (flowIats [0, 1, 3]) func 0 = 0) ∧
    flowIats [0, 1, 3] = .nparr [1, 2] ∧
    npMean (elemsOf (flowIats [0, 1, 3])) = .ok (3 / 2) ∧
    npMax (elemsOf (flowIats [0, 1, 3])) = .ok 2 ∧
    npMin (elemsOf (flowIats [0, 1, 3])) = .ok 1 ∧
    (3 / 2 : ℚ) ≠ 0 ∧ (2 : ℚ) ≠ 0 ∧ (1 : ℚ) ≠ 0 := by
  have harr : flowIats [0, 1, 3] = .nparr [1, 2] := by
    norm_num [flowIats, npDiff, List.insertionSort, List.orderedInsert]
  refine ⟨fun func => ?_, harr, ?_, ?_, ?_, by norm_num, by norm_num, by norm_num⟩
  · rw [harr]; rfl
  · rw [harr]; norm_num [npMean, elemsOf]
  · rw [harr]; norm_num [npMax, elemsOf]
  · rw [harr]; norm_num [npMin, elemsOf]

/-! ### C2 — reverse-orientation packets in the benign (subflow) policy -/

/-- Base key built from `pktAB`. -/
def baseAB : FlowKey := ⟨"10.0.0.1", "1111", "10.0.0.2", "80", "TCP"⟩

/-- Base key built from `pktBA` (the reverse orientation of `baseAB`). -/
def baseBA : FlowKey := ⟨"10.0.0.2", "80", "10.0.0.1", "1111", "TCP"⟩

/-- Accumulator after ingesting `pktAB` alone. -/
def accAB : FlowAcc :=
  ⟨1, 1, [1], [60], [1], [], [60], [], [20], [], ["0x18"], 1, 0, 0, 0, some 100, none⟩

/-- Accumulator after ingesting `pktBA` alone. -/
def accBA : FlowAcc :=
  ⟨2, 2, [2], [60], [2], [], [60], [], [20], [], ["0x18"], 1, 0, 0, 0, some 100, none⟩

/-- Evaluation of the benign step on `pktAB` from the empty state. -/
theorem benignStep_pktAB :
    benignStep ⟨[], []⟩ pktAB = ⟨[(baseAB, ⟨0, 1, 1⟩)], [((baseAB, 0), accAB)]⟩ := by
  have hr0 : ¬ ((30 : ℚ) < 0) := by norm_num
  simp [benignStep, benignIngest, ingestDir, ingestFlags, emptyAcc, alookup, aupdate,
    ainsert, pktAB, baseAB, accAB, MAX_FLOW_DURATION, MAX_PKTS_PER_SUBFLOW, hr0]

/-- Evaluation of the benign step on the reverse packet `pktBA`: it creates a
second flow under its own base key instead of joining `baseAB`'s subflow. -/
theorem benignStep_pktBA :
    benignStep ⟨[(baseAB, ⟨0, 1, 1⟩)], [((baseAB, 0), accAB)]⟩ pktBA
      = ⟨[(baseAB, ⟨0, 1, 1⟩), (baseBA, ⟨0, 2, 1⟩)],
         [((baseAB, 0), accAB), ((baseBA, 0), accBA)]⟩ := by
  have hr0 : ¬ ((30 : ℚ) < 0) := by norm_num
  simp [benignStep, benignIngest, ingestDir, ingestFlags, emptyAcc, alookup, aupdate,
    ainsert, pktBA, baseAB, baseBA, accAB, accBA, MAX_FLOW_DURATION, MAX_PKTS_PER_SUBFLOW, hr0]

/-- Evaluation of the benign run on `[pktAB]`. -/
theorem benignRun_pktAB :
    benignRun [pktAB] = ⟨[(baseAB, ⟨0, 1, 1⟩)], [((baseAB, 0), accAB)]⟩ := by
  show List.foldl benignStep ⟨[], []⟩ [pktAB] = _
  rw [List.foldl_cons, benignStep_pktAB, List.foldl_nil]

/-- Evaluation of the benign run on the two-packet conversation. -/
theorem benignRun_pktAB_pktBA :
    benignRun [pktAB, pktBA]
      = ⟨[(baseAB, ⟨0, 1, 1⟩), (baseBA, ⟨0, 2, 1⟩)],
         [((baseAB, 0), accAB), ((baseBA, 0), accBA)]⟩ := by
  show List.foldl benignStep ⟨[], []⟩ [pktAB, pktBA] = _
  rw [List.foldl_cons, benignStep_pktAB, List.foldl_cons, benignStep_pktBA, List.foldl_nil]

/-- C2 (code defect): in the benign extraction a packet whose 4-tuple is the
reverse orientation of an existing subflow's first packet does not join that
subflow as backward; it is keyed under its own base tuple as a new flow and
classified forward.  The attack extraction, by contrast, implements the
reverse lookup and classifies the same second packet as backward. -/
theorem benign_reverse_packet_not_joined :
    ((benignRun [pktAB, pktBA]).flows.map Prod.fst
        = [(⟨"10.0.0.1", "1111", "10.0.0.2", "80", "TCP"⟩, 0),
           (⟨"10.0.0.2", "80", "10.0.0.1", "1111", "TCP"⟩, 0)]) ∧
    ((alookup (benignRun [pktAB, pktBA]).flows
          (⟨"10.0.0.1", "1111", "10.0.0.2", "80", "TCP"⟩, 0)).map
        (fun f => (f.times, f.bwd_times)) = some ([1], [])) ∧
    ((alookup (benignRun [pktAB, pktBA]).flows
          (⟨"10.0.0.2", "80", "10.0.0.1", "1111", "TCP"⟩, 0)).map
        (fun f => (f.fwd_times, f.bwd_times)) = some ([2], [])) ∧
    ((alookup (attackRun [pktAB, pktBA])
          ⟨"10.0.0.1", "1111", "10.0.0.2", "80", "TCP"⟩).map
        (fun f => (f.fwd_times, f.bwd_times)) = some ([1], [2])) := by
  rw [benignRun_pktAB_pktBA]
  refine ⟨?_, ?_, ?_, by decide⟩
  · simp [baseAB, baseBA]
  · simp [alookup, baseAB, baseBA, accAB]
  · simp [alookup, baseAB, baseBA, accBA]

/-! ### C3 — malformed packets and accumulator state -/

/-- C3 (code defect): a partially decodable packet does not leave the flow
accumulators unchanged.  A first packet whose length does not parse still
creates a persistent accumulator (with `end` set and empty lists); a packet
whose flag value does not parse still appends its timestamp, length, header
and flag string to an existing accumulator while skipping only the PSH/URG
counters. -/
theorem malformed_packet_mutates_state :
    (attackRun [pktNoLen]
        = [(⟨"10.0.0.1", "1111", "10.0.0.2", "80", "TCP"⟩, emptyAcc 1)]) ∧
    attackRun [pktNoLen] ≠ [] ∧
    ((attackRun [pktAB, pktBadFlagVal]).map
        (fun kv => (kv.2.times, kv.2.flags_hex.length, kv.2.fwd_psh))
      = [([1, 3], 2, 1)]) ∧
    attackStep (attackRun [pktAB]) pktBadFlagVal ≠ attackRun [pktAB] ∧
    (benignRun [pktNoLen]).flows ≠ [] := by
  refine ⟨by decide, by decide, by decide, by decide, by decide⟩

/-! ### C10 — the benign extraction never classifies a packet backward -/

/-- The flag stage leaves the backward side untouched in forward direction. -/
theorem noBwd_ingestFlags (f : FlowAcc) (p : RawPacket) (h : noBwd f) :
    noBwd (ingestFlags f .fwd p) := by
  unfold ingestFlags
  cases p.flags with
  | none => exact h
  | some fs =>
    cases p.flagsVal with
    | none => simpa [noBwd] using h
    | some v => simpa [noBwd] using h

/-- The direction stage leaves the backward side untouched in forward
direction. -/
theorem noBwd_ingestDir (f : FlowAcc) (ts : ℚ) (len hdr : ℤ) (p : RawPacket)
    (h : noBwd f) : noBwd (ingestDir f ts len hdr .fwd p) := by
  unfold ingestDir
  simp only
  cases hw : f.init_win_fwd with
  | some w =>
    simp only [hw]
    exact noBwd_ingestFlags _ p (by simpa [noBwd] using h)
  | none =>
    simp only [hw]
    cases p.window with
    | none => simpa [noBwd] using h
    | some w => exact noBwd_ingestFlags _ p (by simpa [noBwd] using h)

/-- The benign per-packet accumulator mutation leaves the backward side
untouched: the direction test compares the packet against a base key built
from that same packet, so the forward branch is always taken. -/
theorem noBwd_benignIngest (f : FlowAcc) (ts : ℚ) (src sp : String)
    (base : FlowKey) (p : RawPacket) (h1 : base.src = src) (h2 : base.sport = sp)
    (h : noBwd f) : noBwd (benignIngest f ts src sp base p) := by
  unfold benignIngest
  simp only [h1, h2]
  cases p.length with
  | none => simpa [noBwd] using h
  | some len =>
    simp only
    cases p.hdr_len with
    | none => exact noBwd_ingestDir _ ts len 0 p (by simpa [noBwd] using h)
    | some ho =>
      cases ho with
      | none => simpa [noBwd] using h
      | some hd => exact noBwd_ingestDir _ ts len hd p (by simpa [noBwd] using h)

/-- Elements of an `aupdate` are old elements or images of the update. -/
theorem mem_aupdate_preserve {κ α : Type} [DecidableEq κ] {P : α → Prop}
    {l : List (κ × α)} {key : κ} {g : α → α}
    (hl : ∀ kv ∈ l, P kv.2) (hg : ∀ v, P v → P (g v)) :
    ∀ kv ∈ aupdate l key g, P kv.2 := by
  intro kv hkv
  unfold aupdate at hkv
  obtain ⟨ab, hab, hkv⟩ := List.mem_map.mp hkv
  by_cases h : ab.1 = key
  · rw [if_pos h] at hkv
    exact hkv ▸ hg ab.2 (hl ab hab)
  · rw [if_neg h] at hkv
    exact hkv ▸ hl ab hab

/-- One benign step preserves the all-forward invariant on accumulators. -/
theorem noBwd_benignStep (s : BState) (p : RawPacket)
    (h : ∀ kv ∈ s.flows, noBwd kv.2) :
    ∀ kv ∈ (benignStep s p).flows, noBwd kv.2 := by
  unfold benignStep
  cases hts : p.ts with
  | none => exact h
  | some ts =>
  cases hsrc : p.ipsrc with
  | none => exact h
  | some src =>
  cases hsp : p.sport with
  | none => exact h
  | some sp =>
  cases hdst : p.ipdst with
  | none => exact h
  | some dst =>
  cases hdp : p.dport with
  | none => exact h
  | some dp =>
  cases htl : p.transport with
  | none => exact h
  | some tl =>
  simp only
  refine mem_aupdate_preserve ?_ (fun v hv => noBwd_benignIngest v ts src sp _ p rfl rfl hv)
  intro kv hkv
  by_cases hfound : (alookup s.flows
      (⟨src, sp, dst, dp, tl⟩,
        (if ts - (match alookup s.flow_meta ⟨src, sp, dst, dp, tl⟩ with
                  | some m => m
                  | none => ⟨0, ts, 0⟩).start_ts > MAX_FLOW_DURATION ∨
            (match alookup s.flow_meta ⟨src, sp, dst, dp, tl⟩ with
              | some m => m
              | none => ⟨0, ts, 0⟩).pkt_count ≥ MAX_PKTS_PER_SUBFLOW
          then (⟨(match alookup s.flow_meta ⟨src, sp, dst, dp, tl⟩ with
                  | some m => m
                  | none => ⟨0, ts, 0⟩).idx + 1, ts, 0⟩ : SubflowMeta)
          else (match alookup s.flow_meta ⟨src, sp, dst, dp, tl⟩ with
                | some m => m
                | none => ⟨0, ts, 0⟩)).idx)).isSome
  · rw [if_pos hfound] at hkv
    exact h kv hkv
  · rw [if_neg hfound] at hkv
    rcases List.mem_append.mp hkv with hold | hnew
    · exact h kv hold
    · rw [List.mem_singleton.mp hnew]
      exact ⟨rfl, rfl, rfl, rfl, rfl, rfl⟩

/-- C10: in the benign (subflow-bounded) extraction every successfully
processed packet is classified forward: after any ingestion run, every
subflow accumulator has empty backward timestamp, length and header lists,
zero backward PSH and URG counters, and an unset backward initial window. -/
theorem benign_all_forward (l : List RawPacket) :
    ∀ kv ∈ (benignRun l).flows, noBwd kv.2 := by
  suffices h : ∀ (s : BState), (∀ kv ∈ s.flows, noBwd kv.2) →
      ∀ kv ∈ (List.foldl benignStep s l).flows, noBwd kv.2 by
    exact h ⟨[], []⟩ (by simp)
  induction l with
  | nil => intro s hs; simpa using hs
  | cons p rest ih => intro s hs; exact ih _ (noBwd_benignStep s p hs)

/-- Witness for `benign_all_forward` on the one-packet run `[pktAB]`. -/
theorem benign_all_forward_witness :
    ((baseAB, 0), accAB) ∈ (benignRun [pktAB]).flows ∧ noBwd accAB :=
  have hmem : ((baseAB, 0), accAB) ∈ (benignRun [pktAB]).flows := by
    rw [benignRun_pktAB]; exact List.mem_singleton.mpr rfl
  ⟨hmem, benign_all_forward [pktAB] ((baseAB, 0), accAB) hmem⟩

/-! ### C7 — packet conservation -/

/-- Unpacking of `wellFormed`. -/
theorem wellFormed_fields (p : RawPacket) (hp : wellFormed p = true) :
    (∃ a, p.ts = some a) ∧ (∃ a, p.ipsrc = some a) ∧ (∃ a, p.sport = some a) ∧
    (∃ a, p.ipdst = some a) ∧ (∃ a, p.dport = some a) ∧ (∃ a, p.transport = some a) ∧
    (∃ a, p.length = some a) ∧ p.hdr_len ≠ some none ∧ (∃ a, p.window = some a) ∧
    (∃ a, p.flags = some a) ∧ (∃ a, p.flagsVal = some a) := by
  unfold wellFormed at hp
  simp only [Bool.and_eq_true, Option.isSome_iff_exists] at hp
  obtain ⟨⟨⟨⟨⟨⟨⟨⟨⟨⟨h1, h2⟩, h3⟩, h4⟩, h5⟩, h6⟩, h7⟩, hm⟩, h8⟩, h9⟩, h10⟩ := hp
  refine ⟨h1, h2, h3, h4, h5, h6, h7, ?_, h8, h9, h10⟩
  intro hcon
  rw [hcon] at hm
  exact Bool.false_ne_true hm

/-- A failed lookup means the key is absent. -/
theorem alookup_none_iff {κ α : Type} [DecidableEq κ] (l : List (κ × α)) (k : κ) :
    alookup l k = none ↔ k ∉ l.map Prod.fst := by
  induction l with
  | nil => simp [alookup]
  | cons kv rest ih =>
    by_cases h : kv.1 = k
    · subst h
      simp [alookup]
    · simp [alookup, h, ih, Ne.symm h]

/-- Updating a value keeps the key sequence. -/
theorem aupdate_map_fst {κ α : Type} [DecidableEq κ] (l : List (κ × α)) (key : κ)
    (g : α → α) : (aupdate l key g).map Prod.fst = l.map Prod.fst := by
  induction l with
  | nil => rfl
  | cons kv rest ih =>
    by_cases h : kv.1 = key <;> simp [aupdate, h] <;> simpa [aupdate] using ih

/-- Updating an absent key changes nothing. -/
theorem aupdate_of_not_mem {κ α : Type} [DecidableEq κ] (l : List (κ × α)) (key : κ)
    (g : α → α) (h : key ∉ l.map Prod.fst) : aupdate l key g = l := by
  induction l with
  | nil => rfl
  | cons kv rest ih =>
    simp only [List.map_cons, List.mem_cons, not_or] at h
    have h1 : kv.1 ≠ key := fun he => h.1 he.symm
    simp only [aupdate, List.map_cons, if_neg h1]
    have := ih h.2
    unfold aupdate at this
    rw [this]

/-- Lookup after appending a fresh binding. -/
theorem alookup_append_single {κ α : Type} [DecidableEq κ] (l : List (κ × α)) (k : κ)
    (v : α) (h : alookup l k = none) : alookup (l ++ [(k, v)]) k = some v := by
  induction l with
  | nil => simp [alookup]
  | cons kv rest ih =>
    by_cases hh : kv.1 = k
    · rw [alookup, if_pos hh] at h
      exact absurd h (Option.some_ne_none _)
    · rw [alookup, if_neg hh] at h
      rw [List.cons_append, alookup, if_neg hh]
      exact ih h

/-- Appending a binding adds its packet count. -/
theorem totalDirCount_append {κ : Type} (l : List (κ × FlowAcc)) (k : κ) (v : FlowAcc) :
    totalDirCount (l ++ [(k, v)]) = totalDirCount l + dirCount v := by
  simp [totalDirCount]

/-- Updating the value at a present key (keys distinct) by a mutation that
adds one packet adds one to the total count. -/
theorem totalDirCount_aupdate {κ : Type} [DecidableEq κ] (l : List (κ × FlowAcc))
    (key : κ) (g : FlowAcc → FlowAcc) (v : FlowAcc) (hv : alookup l key = some v)
    (hnd : (l.map Prod.fst).Nodup) (hg : dirCount (g v) = dirCount v + 1) :
    totalDirCount (aupdate l key g) = totalDirCount l + 1 := by
  induction l with
  | nil => simp [alookup] at hv
  | cons kv rest ih =>
    rw [List.map_cons, List.nodup_cons] at hnd
    by_cases h : kv.1 = key
    · rw [alookup, if_pos h] at hv
      injection hv with hv
      have hrest : aupdate rest key g = rest :=
        aupdate_of_not_mem rest key g (h ▸ hnd.1)
      simp only [aupdate, List.map_cons, if_pos h]
      unfold aupdate at hrest
      rw [hrest]
      simp only [totalDirCount, List.map_cons, List.sum_cons]
      rw [hv]
      omega
    · rw [alookup, if_neg h] at hv
      have := ih hv hnd.2
      simp only [aupdate, List.map_cons, if_neg h] at this ⊢
      simp only [totalDirCount, List.map_cons, List.sum_cons] at this ⊢
      omega

/-- The flag stage does not change the packet count. -/
theorem dirCount_ingestFlags (f : FlowAcc) (dir : Dir) (p : RawPacket) :
    dirCount (ingestFlags f dir p) = dirCount f := by
  unfold ingestFlags
  cases p.flags with
  | none => rfl
  | some fs =>
    cases p.flagsVal with
    | none => rfl
    | some v => cases dir <;> rfl

/-- The direction stage adds exactly one packet to its direction. -/
theorem dirCount_ingestDir (f : FlowAcc) (ts : ℚ) (len hdr : ℤ) (dir : Dir)
    (p : RawPacket) : dirCount (ingestDir f ts len hdr dir p) = dirCount f + 1 := by
  unfold ingestDir
  cases dir with
  | fwd =>
    simp only
    cases hw : f.init_win_fwd with
    | some w => rw [dirCount_ingestFlags]; simp [dirCount]; omega
    | none =>
      cases p.window with
      | none => simp [dirCount]; omega
      | some w => rw [dirCount_ingestFlags]; simp [dirCount]; omega
  | bwd =>
    simp only
    cases hw : f.init_win_bwd with
    | some w => rw [dirCount_ingestFlags]; simp [dirCount]; omega
    | none =>
      cases p.window with
      | none => simp [dirCount]; omega
      | some w => rw [dirCount_ingestFlags]; simp [dirCount]; omega

/-- The attack accumulator mutation adds exactly one packet when the length
parses and the header length does not raise. -/
theorem dirCount_accIngest (f : FlowAcc) (ts : ℚ) (dir : Dir) (p : RawPacket)
    (len : ℤ) (hlen : p.length = some len) (hhdr : p.hdr_len ≠ some none) :
    dirCount (accIngest f ts dir p) = dirCount f + 1 := by
  unfold accIngest
  rw [hlen]
  simp only
  cases hh : p.hdr_len with
  | none => rw [dirCount_ingestDir]; simp [dirCount]
  | some ho =>
    cases ho with
    | none => exact absurd hh hhdr
    | some hd => rw [dirCount_ingestDir]; simp [dirCount]

/-- The benign accumulator mutation adds exactly one packet when the length
parses and the header length does not raise. -/
theorem dirCount_benignIngest (f : FlowAcc) (ts : ℚ) (src sp : String)
    (base : FlowKey) (p : RawPacket) (len : ℤ) (hlen : p.length = some len)
    (hhdr : p.hdr_len ≠ some none) :
    dirCount (benignIngest f ts src sp base p) = dirCount f + 1 := by
  unfold benignIngest
  rw [hlen]
  simp only
  cases hh : p.hdr_len with
  | none => rw [dirCount_ingestDir]; simp [dirCount]
  | some ho =>
    cases ho with
    | none => exact absurd hh hhdr
    | some hd => rw [dirCount_ingestDir]; simp [dirCount]

/-- The shared "look up or create, then mutate" pattern adds exactly one to
the total count and keeps keys distinct. -/
theorem totalDirCount_create_update {κ : Type} [DecidableEq κ]
    (flows : List (κ × FlowAcc)) (key : κ) (ts : ℚ) (g : FlowAcc → FlowAcc)
    (hg : ∀ v, dirCount (g v) = dirCount v + 1)
    (hnd : (flows.map Prod.fst).Nodup) :
    totalDirCount (aupdate (if (alookup flows key).isSome then flows
        else flows ++ [(key, emptyAcc ts)]) key g) = totalDirCount flows + 1 ∧
    ((aupdate (if (alookup flows key).isSome then flows
        else flows ++ [(key, emptyAcc ts)]) key g).map Prod.fst).Nodup := by
  by_cases hk : (alookup flows key).isSome
  · rw [if_pos hk]
    obtain ⟨v, hv⟩ := Option.isSome_iff_exists.mp hk
    refine ⟨totalDirCount_aupdate flows key g v hv hnd (hg v), ?_⟩
    rw [aupdate_map_fst]
    exact hnd
  · rw [if_neg hk]
    have hnone : alookup flows key = none := by
      cases hs : alookup flows key with
      | none => rfl
      | some v => rw [hs] at hk; simp at hk
    have hmem : key ∉ flows.map Prod.fst := (alookup_none_iff flows key).mp hnone
    have hnd1 : ((flows ++ [(key, emptyAcc ts)]).map Prod.fst).Nodup := by
      rw [List.map_append]
      simp [List.nodup_append, hmem, hnd]
    have hv1 : alookup (flows ++ [(key, emptyAcc ts)]) key = some (emptyAcc ts) :=
      alookup_append_single flows key _ hnone
    refine ⟨?_, by rw [aupdate_map_fst]; exact hnd1⟩
    rw [totalDirCount_aupdate _ key g (emptyAcc ts) hv1 hnd1 (hg _),
      totalDirCount_append]
    simp [dirCount, emptyAcc]

/-- One attack step on a well-formed packet adds exactly one (flow,
direction) assignment. -/
theorem attackStep_count (flows : List (FlowKey × FlowAcc)) (p : RawPacket)
    (hp : wellFormed p = true) (hnd : (flows.map Prod.fst).Nodup) :
    totalDirCount (attackStep flows p) = totalDirCount flows + 1 ∧
    ((attackStep flows p).map Prod.fst).Nodup := by
  obtain ⟨⟨ts, hts⟩, ⟨src, hsrc⟩, ⟨sp, hsp⟩, ⟨dst, hdst⟩, ⟨dp, hdp⟩, -,
    ⟨len, hlen⟩, hhdr, -, -, -⟩ := wellFormed_fields p hp
  unfold attackStep
  rw [hts, hsrc, hsp, hdst, hdp]
  simp only
  by_cases hrev : (alookup flows (⟨dst, dp, src, sp, "TCP"⟩ : FlowKey)).isSome
  · rw [if_pos hrev]
    exact totalDirCount_create_update flows _ ts _
      (fun v => dirCount_accIngest v ts .bwd p len hlen hhdr) hnd
  · rw [if_neg hrev]
    exact totalDirCount_create_update flows _ ts _
      (fun v => dirCount_accIngest v ts .fwd p len hlen hhdr) hnd

/-- One benign step on a well-formed packet adds exactly one (subflow,
direction) assignment. -/
theorem benignStep_count (s : BState) (p : RawPacket)
    (hp : wellFormed p = true) (hnd : (s.flows.map Prod.fst).Nodup) :
    totalDirCount (benignStep s p).flows = totalDirCount s.flows + 1 ∧
    ((benignStep s p).flows.map Prod.fst).Nodup := by
  obtain ⟨⟨ts, hts⟩, ⟨src, hsrc⟩, ⟨sp, hsp⟩, ⟨dst, hdst⟩, ⟨dp, hdp⟩, ⟨tl, htl⟩,
    ⟨len, hlen⟩, hhdr, -, -, -⟩ := wellFormed_fields p hp
  unfold benignStep
  rw [hts, hsrc, hsp, hdst, hdp, htl]
  simp only
  exact totalDirCount_create_update s.flows _ ts _
    (fun v => dirCount_benignIngest v ts src sp _ p len hlen hhdr) hnd

/-- Fold form of the attack conservation argument. -/
theorem attack_foldl_count (l : List RawPacket) :
    ∀ (s : List (FlowKey × FlowAcc)), (∀ p ∈ l, wellFormed p = true) →
    (s.map Prod.fst).Nodup →
    totalDirCount (List.foldl attackStep s l) = totalDirCount s + l.length ∧
    ((List.foldl attackStep s l).map Prod.fst).Nodup := by
  induction l with
  | nil => intro s _ hnd; exact ⟨by simp, hnd⟩
  | cons p rest ih =>
    intro s hwf hnd
    have h1 := attackStep_count s p (hwf p (List.mem_cons_self p rest)) hnd
    have h2 := ih (attackStep s p) (fun q hq => hwf q (List.mem_cons_of_mem p hq)) h1.2
    refine ⟨?_, h2.2⟩
    rw [List.foldl_cons, h2.1, h1.1]
    simp only [List.length_cons]
    omega

/-- Fold form of the benign conservation argument. -/
theorem benign_foldl_count (l : List RawPacket) :
    ∀ (s : BState), (∀ p ∈ l, wellFormed p = true) →
    (s.flows.map Prod.fst).Nodup →
    totalDirCount (List.foldl benignStep s l).flows = totalDirCount s.flows + l.length ∧
    ((List.foldl benignStep s l).flows.map Prod.fst).Nodup := by
  induction l with
  | nil => intro s _ hnd; exact ⟨by simp, hnd⟩
  | cons p rest ih =>
    intro s hwf hnd
    have h1 := benignStep_count s p (hwf p (List.mem_cons_self p rest)) hnd
    have h2 := ih (benignStep s p) (fun q hq => hwf q (List.mem_cons_of_mem p hq)) h1.2
    refine ⟨?_, h2.2⟩
    rw [List.foldl_cons, h2.1, h1.1]
    simp only [List.length_cons]
    omega

/-- C7: every well-formed packet is assigned to exactly one (flow, direction)
pair, so after ingestion the sum over all flow accumulators of forward plus
backward packet counts equals the number of packets, in both the attack
(whole-flow) and the benign (subflow-bounded) assembler. -/
theorem packet_conservation (l : List RawPacket)
    (h : ∀ p ∈ l, wellFormed p = true) :
    totalDirCount (attackRun l) = l.length ∧
    totalDirCount (benignRun l).flows = l.length := by
  have h1 := attack_foldl_count l [] h (by simp)
  have h2 := benign_foldl_count l ⟨[], []⟩ h (by simp)
  exact ⟨by simpa [attackRun, totalDirCount] using h1.1,
         by simpa [benignRun, totalDirCount] using h2.1⟩

/-- Witness for `packet_conservation` on the two-packet stream. -/
theorem packet_conservation_witness :
    (∀ p ∈ [pktAB, pktBA], wellFormed p = true) ∧
    (totalDirCount (attackRun [pktAB, pktBA]) = 2 ∧
      totalDirCount (benignRun [pktAB, pktBA]).flows = 2) :=
  ⟨by decide, packet_conservation [pktAB, pktBA] (by decide)⟩

/-! ### C8 — subflow splitting of a 45-packet conversation -/

/-- When every remaining timestamp stays within `MAX_FLOW_DURATION` of a
lower bound below the recorded start, the duration check never fires and the
rotation depends only on the packet count. -/
theorem subflowIndicesAux_pure (l : List ℚ) (meta : SubflowMeta) (lo : ℚ)
    (hwin : ∀ x ∈ l, lo ≤ x ∧ x ≤ lo + MAX_FLOW_DURATION)
    (hm : lo ≤ meta.start_ts) :
    subflowIndicesAux meta l = pureIndicesAux (meta.idx, meta.pkt_count) l.length := by
  induction l generalizing meta with
  | nil => rfl
  | cons t rest ih =>
    have ht := hwin t (List.mem_cons_self t rest)
    have hdur : ¬ (t - meta.start_ts > MAX_FLOW_DURATION) := by
      push_neg
      have h1 : t ≤ lo + MAX_FLOW_DURATION := ht.2
      linarith
    have hwin' : ∀ x ∈ rest, lo ≤ x ∧ x ≤ lo + MAX_FLOW_DURATION :=
      fun x hx => hwin x (List.mem_cons_of_mem t hx)
    by_cases hc : meta.pkt_count ≥ MAX_PKTS_PER_SUBFLOW
    · have hstep : subflowStep meta t = ⟨meta.idx + 1, t, 1⟩ := by
        unfold subflowStep
        rw [if_pos (Or.inr hc)]
      have hpure : pureStep (meta.idx, meta.pkt_count) = (meta.idx + 1, 1) := by
        unfold pureStep
        exact if_pos hc
      rw [subflowIndicesAux, hstep, List.length_cons, pureIndicesAux, hpure]
      exact congrArg _ (ih ⟨meta.idx + 1, t, 1⟩ hwin' ht.1)
    · have hstep : subflowStep meta t = ⟨meta.idx, meta.start_ts, meta.pkt_count + 1⟩ := by
        unfold subflowStep
        rw [if_neg (by push_neg; exact ⟨not_lt.mp hdur, Nat.lt_of_not_le hc⟩)]
      have hpure : pureStep (meta.idx, meta.pkt_count) = (meta.idx, meta.pkt_count + 1) := by
        unfold pureStep
        exact if_neg hc
      rw [subflowIndicesAux, hstep, List.length_cons, pureIndicesAux, hpure]
      exact congrArg _ (ih ⟨meta.idx, meta.start_ts, meta.pkt_count + 1⟩ hwin' hm)

/-- C8: 45 packets of one conversation, in time order with all timestamps
within `MAX_FLOW_DURATION` of the first (so no duration rotation fires), are
split by the subflow rule into exactly three subflows holding 20, 20 and 5
packets. -/
theorem subflow_split_45 (ts : List ℚ) (h45 : ts.length = 45)
    (hsort : ts.Chain' (· ≤ ·))
    (hwin : ∀ x ∈ ts, ts.headI ≤ x ∧ x ≤ ts.headI + MAX_FLOW_DURATION) :
    (subflowIndices ts).count 0 = 20 ∧ (subflowIndices ts).count 1 = 20 ∧
    (subflowIndices ts).count 2 = 5 ∧
    ∀ i, 3 ≤ i → (subflowIndices ts).count i = 0 := by
  match ts, h45, hwin with
  | t :: rest, h45, hwin =>
    have hpure : subflowIndices (t :: rest) = pureIndicesAux (0, 0) 45 := by
      rw [subflowIndices,
        subflowIndicesAux_pure (t :: rest) ⟨0, t, 0⟩ t (by simpa using hwin) le_rfl, h45]
    rw [hpure]
    refine ⟨by decide, by decide, by decide, ?_⟩
    intro i hi
    have hall : ∀ x ∈ pureIndicesAux (0, 0) 45, x < 3 := by decide
    rw [List.count_eq_zero]
    intro hmem
    exact absurd (hall i hmem) (by omega)

/-- Witness for `subflow_split_45` on 45 coincident timestamps. -/
theorem subflow_split_45_witness :
    ((List.replicate 45 (0 : ℚ)).length = 45 ∧
      (List.replicate 45 (0 : ℚ)).Chain' (· ≤ ·) ∧
      (∀ x ∈ List.replicate 45 (0 : ℚ),
        (List.replicate 45 (0 : ℚ)).headI ≤ x ∧
        x ≤ (List.replicate 45 (0 : ℚ)).headI + MAX_FLOW_DURATION)) ∧
    ((subflowIndices (List.replicate 45 (0 : ℚ))).count 0 = 20 ∧
      (subflowIndices (List.replicate 45 (0 : ℚ))).count 1 = 20 ∧
      (subflowIndices (List.replicate 45 (0 : ℚ))).count 2 = 5 ∧
      ∀ i, 3 ≤ i → (subflowIndices (List.replicate 45 (0 : ℚ))).count i = 0) :=
  have hh : (List.replicate 45 (0 : ℚ)).headI = 0 := rfl
  have hwin : ∀ x ∈ List.replicate 45 (0 : ℚ),
      (List.replicate 45 (0 : ℚ)).headI ≤ x ∧
      x ≤ (List.replicate 45 (0 : ℚ)).headI + MAX_FLOW_DURATION := by
    intro x hx
    rw [List.eq_of_mem_replicate hx, hh, MAX_FLOW_DURATION]
    norm_num
  ⟨⟨by simp, List.chain'_replicate_of_rel 45 le_rfl, hwin⟩,
   subflow_split_45 (List.replicate 45 0) (by simp)
     (List.chain'_replicate_of_rel 45 le_rfl) hwin⟩

/-! ### C6 — bulk-count monotonicity -/

/-- Tightening the qualification thresholds never lengthens the bulks list. -/
theorem bulksAux_length_antitone (th : ℚ) (minp minpl : Nat) (minb minbl : ℚ)
    (hp : minpl ≤ minp) (hb : minbl ≤ minb) (ts : List ℚ) :
    ∀ (ls : List ℚ) (s pv : ℚ) (c : Nat) (b : ℚ),
    (bulksAux th minp minb s pv c b ts ls).length ≤
      (bulksAux th minpl minbl s pv c b ts ls).length := by
  induction ts with
  | nil =>
    intro ls s pv c b
    unfold bulksAux
    by_cases h1 : minp ≤ c ∧ minb ≤ b
    · have h2 : minpl ≤ c ∧ minbl ≤ b := ⟨hp.trans h1.1, hb.trans h1.2⟩
      rw [if_pos h1, if_pos h2]
    · by_cases h2 : minpl ≤ c ∧ minbl ≤ b
      · rw [if_neg h1, if_pos h2]
        simp
      · rw [if_neg h1, if_neg h2]
  | cons t rest ih =>
    intro ls s pv c b
    unfold bulksAux
    by_cases hg : t - pv ≥ th
    · rw [if_pos hg, if_pos hg]
      by_cases h1 : minp ≤ c ∧ minb ≤ b
      · have h2 : minpl ≤ c ∧ minbl ≤ b := ⟨hp.trans h1.1, hb.trans h1.2⟩
        rw [if_pos h1, if_pos h2]
        simpa using ih ls.tail t t 1 (ls.headD 0)
      · by_cases h2 : minpl ≤ c ∧ minbl ≤ b
        · rw [if_neg h1, if_pos h2]
          simp only [List.length_cons]
          exact (ih ls.tail t t 1 (ls.headD 0)).trans (Nat.le_succ _)
        · rw [if_neg h1, if_neg h2]
          exact ih ls.tail t t 1 (ls.headD 0)
    · rw [if_neg hg, if_neg hg]
      exact ih ls.tail s t (c + 1) (b + ls.headD 0)

/-- C6: for every timestamp sequence with aligned lengths and every fixed
threshold, increasing `min_bytes` or `min_packets` never increases the number
of runs that qualify as bulks (the early all-zero return counted as zero
qualifying runs). -/
theorem bulk_count_monotone (times lengths : List ℚ) (threshold : ℚ)
    (minp minp' : Nat) (minb minb' : ℚ)
    (hsort : times.Chain' (· ≤ ·)) (hlen : lengths.length = times.length)
    (hp : minp ≤ minp') (hb : minb ≤ minb') :
    numQualifyingBulks times lengths minp' minb' threshold ≤
      numQualifyingBulks times lengths minp minb threshold := by
  unfold numQualifyingBulks
  by_cases h1 : times.length < minp'
  · rw [if_pos h1]
    exact Nat.zero_le _
  · have h2 : ¬ times.length < minp := fun hlt => h1 (hlt.trans_le hp)
    rw [if_neg h1, if_neg h2]
    cases times with
    | nil =>
      by_cases hq : minp' ≤ 0 ∧ minb' ≤ 0
      · have hq2 : minp ≤ 0 ∧ minb ≤ 0 := ⟨hp.trans hq.1, hb.trans hq.2⟩
        rw [if_pos hq, if_pos hq2]
      · by_cases hq2 : minp ≤ 0 ∧ minb ≤ 0
        · rw [if_neg hq, if_pos hq2]
          simp
        · rw [if_neg hq, if_neg hq2]
    | cons t ts =>
      exact bulksAux_length_antitone threshold minp' minp minb' minb hp hb ts
        lengths.tail t t 1 (lengths.headD 0)

/-- Witness for `bulk_count_monotone`: two packets, raising `min_packets`
from 1 to 2 and `min_bytes` from 0 to 700. -/
theorem bulk_count_monotone_witness :
    (([0, 2] : List ℚ).Chain' (· ≤ ·) ∧ ([100, 200] : List ℚ).length = ([0, 2] : List ℚ).length ∧
      (1 : Nat) ≤ 2 ∧ (0 : ℚ) ≤ 700) ∧
    numQualifyingBulks [0, 2] [100, 200] 2 700 1 ≤ numQualifyingBulks [0, 2] [100, 200] 1 0 1 :=
  ⟨⟨by norm_num [List.chain'_cons], by norm_num, by norm_num, by norm_num⟩,
   bulk_count_monotone [0, 2] [100, 200] 1 1 2 0 700 (by norm_num [List.chain'_cons])
     (by norm_num) (by norm_num) (by norm_num)⟩

/-! ### C5 — bulk metrics refine the spec-side formulation -/

/-- Default irrelevance of `headD` on nonempty lists. -/
theorem headD_irrel {α : Type} (l : List α) (h : l ≠ []) (d d' : α) :
    l.headD d = l.headD d' := by
  cases l with
  | nil => exact absurd rfl h
  | cons a as => rfl

/-- Default irrelevance of `getLastD` on nonempty lists. -/
theorem getLastD_irrel {α : Type} (l : List α) (h : l ≠ []) (d d' : α) :
    l.getLastD d = l.getLastD d' := by
  cases l with
  | nil => exact absurd rfl h
  | cons a as => rw [List.getLastD_cons, List.getLastD_cons]

/-- Reversal swaps `headD` and `getLastD`. -/
theorem headD_reverse {α : Type} (l : List α) (d : α) :
    l.reverse.headD d = l.getLastD d := by
  induction l with
  | nil => rfl
  | cons a as ih =>
    rw [List.reverse_cons, List.getLastD_cons]
    cases has : as with
    | nil => rfl
    | cons b bs =>
      have hne : as.reverse ≠ [] := by simp [has]
      rw [← has]
      cases hrv : as.reverse with
      | nil => exact absurd hrv hne
      | cons c cs =>
        rw [List.cons_append]
        show c = as.getLastD a
        have h1 : as.reverse.headD d = c := by rw [hrv]; rfl
        rw [ih] at h1
        rw [getLastD_irrel as (by simp [has]) a d, h1]

/-- Reversal swaps `getLastD` and `headD`. -/
theorem getLastD_reverse {α : Type} (l : List α) (d : α) :
    l.reverse.getLastD d = l.headD d := by
  have := headD_reverse l.reverse d
  rw [List.reverse_reverse] at this
  rw [← this]

/-- Byte sum is reversal invariant. -/
theorem runBytes_reverse (r : List (ℚ × ℚ)) : runBytes r.reverse = runBytes r := by
  unfold runBytes
  rw [List.map_reverse, List.sum_reverse]

/-- Qualification is reversal invariant. -/
theorem runQualifies_reverse (minp : Nat) (minb : ℚ) (r : List (ℚ × ℚ)) :
    runQualifies minp minb r.reverse = runQualifies minp minb r := by
  unfold runQualifies
  rw [List.length_reverse, runBytes_reverse]

/-- Closing the current (reversed) run: filtering and summarising the
prepended run is the code's qualification test and bulk triple. -/
theorem filter_map_close (minp : Nat) (minb : ℚ) (cur : List (ℚ × ℚ))
    (rest : List (List (ℚ × ℚ))) :
    ((cur.reverse :: rest).filter (runQualifies minp minb)).map
        (fun r => (r.length, runBytes r, runRate r))
      = (if minp ≤ cur.length ∧ minb ≤ (cur.map Prod.snd).sum then
          [((cur.length : Nat), (cur.map Prod.snd).sum,
            (cur.map Prod.snd).sum /
              max ((cur.headD (0, 0)).1 - (cur.getLastD (0, 0)).1) (1 / 10000))]
        else [])
        ++ (rest.filter (runQualifies minp minb)).map
            (fun r => (r.length, runBytes r, runRate r)) := by
  have hbytes : runBytes cur.reverse = (cur.map Prod.snd).sum := by
    rw [runBytes_reverse]; rfl
  have hrate : runRate cur.reverse
      = (cur.map Prod.snd).sum /
          max ((cur.headD (0, 0)).1 - (cur.getLastD (0, 0)).1) (1 / 10000) := by
    unfold runRate runDuration
    rw [hbytes, headD_reverse, getLastD_reverse]
  by_cases hq : minp ≤ cur.length ∧ minb ≤ (cur.map Prod.snd).sum
  · have hqb : runQualifies minp minb cur.reverse = true := by
      unfold runQualifies
      rw [List.length_reverse, runBytes_reverse]
      show (decide (minp ≤ cur.length) && decide (minb ≤ runBytes cur)) = true
      simp only [Bool.and_eq_true, decide_eq_true_eq]
      exact ⟨hq.1, hq.2⟩
    rw [List.filter_cons_of_pos hqb, if_pos hq, List.map_cons,
      List.length_reverse, hbytes, hrate, List.singleton_append]
  · have hqb : ¬ runQualifies minp minb cur.reverse = true := by
      unfold runQualifies runBytes
      rw [List.length_reverse, List.map_reverse, List.sum_reverse]
      simp only [Bool.and_eq_true, decide_eq_true_eq]
      exact fun hcon => hq ⟨hcon.1, hcon.2⟩
    rw [List.filter_cons_of_neg hqb, if_neg hq, List.nil_append]

/-- The code's bulks loop computes exactly the summaries of the qualifying
runs of the spec-side partition, when the current run (kept reversed in
`cur`) seeds the loop state. -/
theorem bulksAux_splitRuns (th : ℚ) (minp : Nat) (minb : ℚ) (ts : List ℚ) :
    ∀ (ls : List ℚ) (cur : List (ℚ × ℚ)), cur ≠ [] → ts.length ≤ ls.length →
    bulksAux th minp minb (cur.getLastD (0, 0)).1 (cur.headD (0, 0)).1 cur.length
        ((cur.map Prod.snd).sum) ts ls
      = ((splitRunsAux th cur (ts.zip ls)).filter (runQualifies minp minb)).map
          (fun r => (r.length, runBytes r, runRate r)) := by
  induction ts with
  | nil =>
    intro ls cur hc _
    have hz : ([] : List ℚ).zip ls = [] := rfl
    rw [hz, splitRunsAux]
    rw [bulksAux]
    rw [filter_map_close minp minb cur []]
    rw [List.filter_nil, List.map_nil, List.append_nil]
  | cons t rest ih =>
    intro ls cur hc hlen
    cases ls with
    | nil => simp at hlen
    | cons l0 ls' =>
      have hlen' : rest.length ≤ ls'.length := by simpa using hlen
      rw [List.zip_cons_cons, splitRunsAux, bulksAux]
      have hcond : ((t, l0).1 - (cur.headD (t, l0)).1 ≥ th)
          = (t - (cur.headD (0, 0)).1 ≥ th) := by
        rw [headD_irrel cur hc (t, l0) (0, 0)]
      simp only [hcond]
      by_cases hg : t - (cur.headD (0, 0)).1 ≥ th
      · rw [if_pos hg, if_pos hg]
        have hrec : bulksAux th minp minb t t 1 ((l0 :: ls').headD 0) rest (l0 :: ls').tail
            = ((splitRunsAux th [(t, l0)] (rest.zip ls')).filter
                (runQualifies minp minb)).map
                (fun r => (r.length, runBytes r, runRate r)) := by
          have := ih ls' [(t, l0)] (by simp) hlen'
          simpa using this
        rw [filter_map_close minp minb cur]
        by_cases hq : minp ≤ cur.length ∧ minb ≤ (cur.map Prod.snd).sum
        · rw [if_pos hq, if_pos hq, hrec, List.singleton_append]
        · rw [if_neg hq, if_neg hq, hrec, List.nil_append]
      · rw [if_neg hg, if_neg hg]
        have hne : (t, l0) :: cur ≠ [] := by simp
        have hrec := ih ls' ((t, l0) :: cur) hne hlen'
        rw [List.getLastD_cons, getLastD_irrel cur hc (t, l0) (0, 0)] at hrec
        simp only [List.headD_cons, List.length_cons, List.map_cons, List.sum_cons] at hrec
        rw [List.headD_cons, List.tail_cons, add_comm ((cur.map Prod.snd).sum) l0]
        exact hrec

/-- The runs of the partition flatten back to the input. -/
theorem splitRunsAux_flatten (th : ℚ) (rest : List (ℚ × ℚ)) :
    ∀ cur, (splitRunsAux th cur rest).flatten = cur.reverse ++ rest := by
  induction rest with
  | nil => intro cur; rw [splitRunsAux]; simp
  | cons q rest ih =>
    intro cur
    rw [splitRunsAux]
    by_cases h : q.1 - (cur.headD q).1 ≥ th
    · rw [if_pos h]
      simp [ih [q]]
    · rw [if_neg h, ih (q :: cur)]
      simp

/-- A run of the partition is no longer than the input. -/
theorem mem_splitRuns_length_le (th : ℚ) (pairs : List (ℚ × ℚ))
    (r : List (ℚ × ℚ)) (h : r ∈ splitRuns th pairs) : r.length ≤ pairs.length := by
  have hjoin : (splitRuns th pairs).flatten.length = pairs.length := by
    cases pairs with
    | nil => rfl
    | cons p ps => rw [splitRuns, splitRunsAux_flatten th ps [p]]; simp
  have hmem : r.length ∈ (splitRuns th pairs).map List.length :=
    List.mem_map_of_mem List.length h
  have hle : r.length ≤ ((splitRuns th pairs).map List.length).sum :=
    List.single_le_sum (fun x _ => Nat.zero_le x) _ hmem
  rw [← List.length_flatten] at hle
  exact hle.trans_eq hjoin

/-- On a nonempty Python list, `safe_stat` with `np.mean` is the mean. -/
theorem safe_stat_pylist_mean (l : List ℚ) (h : l ≠ []) :
    safe_stat (.pylist l) npMean 0 = listMean l := by
  cases l with
  | nil => exact absurd rfl h
  | cons x xs => rfl

/-- Top-level instance of `bulksAux_splitRuns`: the code's bulks list is the
summary of the qualifying runs. -/
theorem bulks_eq_qualifying (th : ℚ) (minp : Nat) (minb : ℚ) (t l0 : ℚ)
    (ts ls : List ℚ) (hlen' : ts.length ≤ ls.length) :
    bulksAux th minp minb t t 1 l0 ts ls
      = (qualifyingRuns th minp minb ((t :: ts).zip (l0 :: ls))).map
          (fun r => (r.length, runBytes r, runRate r)) := by
  have hE := bulksAux_splitRuns th minp minb ts ls [(t, l0)] (by simp) hlen'
  have hsum : (([(t, l0)] : List (ℚ × ℚ)).map Prod.snd).sum = l0 := by simp
  rw [hsum] at hE
  rw [qualifyingRuns, List.zip_cons_cons, splitRuns]
  exact hE

/-- C5: for ascending timestamps with aligned lengths and `min_pkts ≥ 1`,
the Bulk Transfer Detector equals the spec-side formulation — partition into
runs separated by gaps `≥ threshold`, keep runs with `count ≥ min_pkts` and
`bytes ≥ min_bytes`, rate = bytes / max(duration, 1e-4), average the
qualifying runs, all-zero when none qualify or fewer than `min_pkts` samples
exist; and the spec's scenario (lengths `[600,600,600,600]` at
`t = [0, 0.1, 0.2, 0.3]`, `min_pkts = 4`, `min_bytes = 500`) yields exactly
one qualifying bulk with `avg_bytes = 2400`, `avg_packets = 4`. -/
theorem bulk_metrics_spec (times lengths : List ℚ) (minp : Nat) (minb th : ℚ)
    (hsort : times.Chain' (· ≤ ·)) (hlen : lengths.length = times.length)
    (hmin : 1 ≤ minp) :
    compute_bulk_metrics times lengths minp minb th
      = .ok (specBulkResult th minp minb (times.zip lengths)) ∧
    compute_bulk_metrics [0, 1/10, 2/10, 3/10] [600, 600, 600, 600] 4 500 1
      = .ok ⟨2400, 4, 8000⟩ ∧
    (qualifyingRuns 1 4 500
      [((0 : ℚ), (600 : ℚ)), (1/10, 600), (2/10, 600), (3/10, 600)]).length = 1 := by
  refine ⟨?_, ?_, ?_⟩
  · by_cases hfew : times.length < minp
    · rw [compute_bulk_metrics.eq_def, if_pos hfew]
      have hnil : qualifyingRuns th minp minb (times.zip lengths) = [] := by
        rw [qualifyingRuns, List.filter_eq_nil_iff]
        intro r hr
        have hle : r.length ≤ (times.zip lengths).length :=
          mem_splitRuns_length_le th (times.zip lengths) r hr
        rw [List.length_zip, hlen, min_self] at hle
        have : ¬ minp ≤ r.length := by omega
        unfold runQualifies
        simp only [Bool.and_eq_true, decide_eq_true_eq, not_and]
        exact fun hcon => absurd hcon this
      rw [specBulkResult, if_pos hnil]
    · cases times with
      | nil => exact absurd (by simpa using hmin) hfew
      | cons t ts =>
        cases lengths with
        | nil => simp at hlen
        | cons l0 ls =>
          have hlen' : ts.length ≤ ls.length := by
            simp only [List.length_cons] at hlen
            omega
          rw [compute_bulk_metrics.eq_def, if_neg hfew]
          show Except.ok (bulkFinish (bulksAux th minp minb t t 1
              ((l0 :: ls).headD 0) ts (l0 :: ls).tail)) = _
          simp only [List.headD_cons, List.tail_cons]
          rw [bulks_eq_qualifying th minp minb t l0 ts ls hlen']
          congr 1
          rw [specBulkResult]
          by_cases hq : qualifyingRuns th minp minb ((t :: ts).zip (l0 :: ls)) = []
          · rw [hq]
            rfl
          · rw [if_neg hq, bulkFinish,
              if_neg (by simpa [List.map_eq_nil_iff] using hq)]
            show BulkResult.mk _ _ _ = BulkResult.mk _ _ _
            have hmapne : (qualifyingRuns th minp minb
                ((t :: ts).zip (l0 :: ls))).map runBytes ≠ [] := by
              simpa [List.map_eq_nil_iff] using hq
            congr 1
            · rw [List.map_map]
              have hcomp : ((fun x : Nat × ℚ × ℚ => x.2.1) ∘
                  (fun r : List (ℚ × ℚ) => ((r.length : Nat), runBytes r, runRate r)))
                    = fun r => runBytes r := rfl
              rw [hcomp, safe_stat_pylist_mean _ (by simpa [List.map_eq_nil_iff] using hq)]
            · rw [List.map_map]
              have hcomp : ((fun x : Nat × ℚ × ℚ => (x.1 : ℚ)) ∘
                  (fun r : List (ℚ × ℚ) => ((r.length : Nat), runBytes r, runRate r)))
                    = fun r : List (ℚ × ℚ) => (r.length : ℚ) := rfl
              rw [hcomp, safe_stat_pylist_mean _ (by simpa [List.map_eq_nil_iff] using hq)]
            · rw [List.map_map]
              have hcomp : ((fun x : Nat × ℚ × ℚ => x.2.2) ∘
                  (fun r : List (ℚ × ℚ) => ((r.length : Nat), runBytes r, runRate r)))
                    = fun r => runRate r := rfl
              rw [hcomp, safe_stat_pylist_mean _ (by simpa [List.map_eq_nil_iff] using hq)]
  · have hmax : max ((3 : ℚ)/10 - 0) (1/10000) = 3/10 := by
      rw [max_def]
      norm_num
    norm_num [compute_bulk_metrics, bulksAux, bulkFinish, safe_stat, pyTruthy,
      elemsOf, npMean, hmax]
  · norm_num [qualifyingRuns, splitRuns, splitRunsAux, runQualifies, runBytes]

/-- Witness for `bulk_metrics_spec` on a one-packet stream. -/
theorem bulk_metrics_spec_witness :
    (([0] : List ℚ).Chain' (· ≤ ·) ∧ ([7] : List ℚ).length = ([0] : List ℚ).length ∧
      (1 : Nat) ≤ 1) ∧
    (compute_bulk_metrics [0] [7] 1 0 1
        = .ok (specBulkResult 1 1 0 (([0] : List ℚ).zip ([7] : List ℚ))) ∧
      compute_bulk_metrics [0, 1/10, 2/10, 3/10] [600, 600, 600, 600] 4 500 1
        = .ok ⟨2400, 4, 8000⟩ ∧
      (qualifyingRuns 1 4 500
        [((0 : ℚ), (600 : ℚ)), (1/10, 600), (2/10, 600), (3/10, 600)]).length = 1) :=
  ⟨⟨by simp, by simp, le_rfl⟩,
   bulk_metrics_spec [0] [7] 1 0 1 (by simp) (by simp) le_rfl⟩

end Extract
